import Mathlib

/-!
Verification of the Rewind.png container engine (a polyglot PNG/audio
"cassette" format).  Files are modelled as `List Nat` of byte values; the
Rust `u8`/`u32`/`u64` arithmetic is modelled on `Nat` with explicit
`% 2^w` where wrap-around matters.  Each definition below is a shallow
embedding of the corresponding function in the Rust sources
(`src/constants.rs`, `src/io.rs`, `src/record.rs`, `src/extract.rs`,
`src/inspect.rs`, `src/playback.rs`).  Reading from a regular file is
modelled as returning `min requested remaining` bytes per `read` call.
Bounded loops from the source are modelled with a fuel argument that is
provably sufficient, so that every definition reduces in the kernel.
-/

set_option maxRecDepth 8000

/-- Constant `BUFFER_SIZE` from `src/constants.rs`. -/
def BUFFER_SIZE : Nat := 16384

/-- Constant `IEND_CHUNK` from `src/constants.rs`: the 12-byte PNG end marker. -/
def IEND_CHUNK : List Nat :=
  [0x00, 0x00, 0x00, 0x00, 0x49, 0x45, 0x4E, 0x44, 0xAE, 0x42, 0x60, 0x82]

/-- Little-endian encoding of a `u32` (`u32::to_le_bytes` in the source). -/
def u32_le (n : Nat) : List Nat :=
  [n % 256, n / 256 % 256, n / 65536 % 256, n / 16777216 % 256]

/-- Little-endian encoding of a `u64` (`u64::to_le_bytes` in the source). -/
def u64_le (n : Nat) : List Nat :=
  [n % 256, n / 256 % 256, n / 65536 % 256, n / 16777216 % 256,
   n / 4294967296 % 256, n / 1099511627776 % 256,
   n / 281474976710656 % 256, n / 72057594037927936 % 256]

/-- Little-endian decoding (`u32::from_le_bytes` / `u64::from_le_bytes`). -/
def le_decode (bs : List Nat) : Nat :=
  bs.foldr (fun b acc => b % 256 + 256 * acc) 0

theorem u32_le_length (n : Nat) : (u32_le n).length = 4 := rfl

theorem u64_le_length (n : Nat) : (u64_le n).length = 8 := rfl

theorem le_decode_u32 (n : Nat) : le_decode (u32_le n) = n % 4294967296 := by
  simp only [u32_le, le_decode, List.foldr]
  omega

theorem le_decode_u64 (n : Nat) : le_decode (u64_le n) = n % 18446744073709551616 := by
  simp only [u64_le, le_decode, List.foldr]
  omega

/-- One shift-xor round of the reflected CRC-32 (polynomial `0xEDB88320`),
as computed by the `crc32fast::Hasher` used in `src/io.rs`. -/
def crc32_table_step (c : Nat) : Nat :=
  if c % 2 = 1 then (c / 2) ^^^ 0xEDB88320 else c / 2

/-- Folding one byte into the CRC-32 state (eight table steps). -/
def crc32_update (c b : Nat) : Nat :=
  crc32_table_step (crc32_table_step (crc32_table_step (crc32_table_step
    (crc32_table_step (crc32_table_step (crc32_table_step (crc32_table_step
      ((c ^^^ b % 256) % 4294967296))))))))

/-- CRC-32 of a byte sequence: init `0xFFFFFFFF`, final xor `0xFFFFFFFF`
(`Hasher::new` ... `Hasher::finalize` in the source). -/
def crc32 (l : List Nat) : Nat :=
  l.foldl crc32_update 0xFFFFFFFF ^^^ 0xFFFFFFFF

theorem xor_lt_u32 {a b : Nat} (ha : a < 4294967296) (hb : b < 4294967296) :
    a ^^^ b < 4294967296 := by
  have e : (4294967296 : Nat) = 2 ^ 32 := by norm_num
  rw [e] at ha hb ⊢
  exact Nat.xor_lt_two_pow ha hb

theorem crc32_table_step_lt (c : Nat) (h : c < 4294967296) :
    crc32_table_step c < 4294967296 := by
  unfold crc32_table_step
  split
  · exact xor_lt_u32 (by omega) (by norm_num)
  · omega

theorem crc32_update_lt (c b : Nat) : crc32_update c b < 4294967296 := by
  unfold crc32_update
  apply crc32_table_step_lt; apply crc32_table_step_lt; apply crc32_table_step_lt
  apply crc32_table_step_lt; apply crc32_table_step_lt; apply crc32_table_step_lt
  apply crc32_table_step_lt; apply crc32_table_step_lt
  exact Nat.mod_lt _ (by norm_num)

theorem crc32_foldl_lt (l : List Nat) (c : Nat) (h : c < 4294967296) :
    l.foldl crc32_update c < 4294967296 := by
  induction l generalizing c with
  | nil => simpa using h
  | cons a t ih => exact ih _ (crc32_update_lt c a)

theorem crc32_lt (l : List Nat) : crc32 l < 4294967296 := by
  unfold crc32
  apply xor_lt_u32
  · exact crc32_foldl_lt l 0xFFFFFFFF (by norm_num)
  · norm_num

/-- Semantics of `read_exact` at an absolute position: returns exactly `n` bytes starting
at `pos`, or fails (in the source this failure is hit by `.unwrap()`,
i.e. a panic) when fewer than `n` bytes remain. -/
def readBytes (file : List Nat) (pos n : Nat) : Option (List Nat) :=
  if pos + n ≤ file.length then some ((file.drop pos).take n) else none

theorem readBytes_at (pre l rest : List Nat) :
    readBytes (pre ++ l ++ rest) pre.length l.length = some l := by
  unfold readBytes
  rw [if_pos (by simp)]
  rw [List.append_assoc, List.drop_left, List.take_left]

theorem readBytes_none (file : List Nat) (pos n : Nat) (h : file.length < pos + n) :
    readBytes file pos n = none := by
  unfold readBytes
  rw [if_neg (by omega)]

/-- One buffer scan of `find_iend` (`src/io.rs` lines 61-69): slide a
window of the marker's length over the fresh bytes of the buffer and
return the index of the first match, scanning only when at least one
full window fits. -/
def scanChunk (chunk : List Nat) : Option Nat :=
  if IEND_CHUNK.length ≤ chunk.length then
    List.find? (fun i => decide ((chunk.drop i).take IEND_CHUNK.length = IEND_CHUNK))
      (List.range (chunk.length - IEND_CHUNK.length + 1))
  else none

/-- The read loop of `find_iend` (`src/io.rs` lines 54-74).  Each
iteration reads the next `BUFFER_SIZE`-byte chunk (a regular file read
returns `min BUFFER_SIZE remaining` bytes), scans it in isolation, and
advances `file_pos` by the chunk length.  The fuel argument bounds the
loop and is chosen large enough to never run out. -/
def find_iend_loop (file : List Nat) : Nat → Nat → Option Nat
  | 0, _ => none
  | fuel + 1, pos =>
    let chunk := (file.drop pos).take BUFFER_SIZE
    if chunk.length = 0 then none
    else
      match scanChunk chunk with
      | some i => some (pos + i + IEND_CHUNK.length)
      | none => find_iend_loop file fuel (pos + chunk.length)

/-- Function `find_iend` from `src/io.rs`: scans the file from the start and
returns the position immediately after the first in-chunk occurrence of
`IEND_CHUNK`. -/
def find_iend (file : List Nat) : Option Nat :=
  find_iend_loop file (file.length + 1) 0

/-- The read loop of `transfer` (`src/io.rs` lines 23-34): the sequence
of bytes copied to the writer (and folded into the hasher), reading
`BUFFER_SIZE`-byte chunks until the reader is exhausted. -/
def transfer_go (file : List Nat) : Nat → Nat → List Nat
  | 0, _ => []
  | fuel + 1, pos =>
    let chunk := (file.drop pos).take BUFFER_SIZE
    if chunk.length = 0 then []
    else chunk ++ transfer_go file fuel (pos + chunk.length)

/-- Function `transfer` from `src/io.rs`, as the byte sequence it moves from the
reader (at position `pos`) to the writer. -/
def transfer (file : List Nat) (pos : Nat) : List Nat :=
  transfer_go file (file.length + 1) pos

theorem transfer_go_eq_drop (file : List Nat) (fuel pos : Nat)
    (h : file.length - pos < fuel) : transfer_go file fuel pos = file.drop pos := by
  induction fuel generalizing pos with
  | zero => omega
  | succ fuel ih =>
    show (if _ = 0 then _ else _) = _
    have hlen : ((file.drop pos).take BUFFER_SIZE).length
        = min BUFFER_SIZE (file.length - pos) := by
      simp [List.length_take, List.length_drop]
    by_cases h0 : ((file.drop pos).take BUFFER_SIZE).length = 0
    · rw [if_pos h0]
      have : file.length - pos = 0 := by
        have hb : (0:Nat) < BUFFER_SIZE := by norm_num [BUFFER_SIZE]
        omega
      rw [List.drop_eq_nil_iff.mpr (by omega)]
    · rw [if_neg h0]
      rw [ih (pos + ((file.drop pos).take BUFFER_SIZE).length) (by omega)]
      have h1 : List.drop (pos + ((file.drop pos).take BUFFER_SIZE).length) file
          = List.drop ((file.drop pos).take BUFFER_SIZE).length (List.drop pos file) := by
        rw [List.drop_drop]
      rw [h1]
      have h2 : List.drop ((file.drop pos).take BUFFER_SIZE).length (List.drop pos file)
          = List.drop BUFFER_SIZE (List.drop pos file) := by
        rcases Nat.le_total BUFFER_SIZE (file.length - pos) with hc | hc
        · rw [hlen, Nat.min_eq_left hc]
        · rw [List.drop_eq_nil_iff.mpr (by rw [List.length_drop, hlen]; omega),
            List.drop_eq_nil_iff.mpr (by rw [List.length_drop]; omega)]
      rw [h2, ← List.take_append_drop BUFFER_SIZE (file.drop pos)]
      rw [List.take_append_drop]

theorem transfer_eq_drop (file : List Nat) (pos : Nat) :
    transfer file pos = file.drop pos :=
  transfer_go_eq_drop file (file.length + 1) pos (by omega)


/-- The read loop of `hash_only` (`src/io.rs` lines 40-51): folds bytes
into the CRC state `c` until `limit` bytes have been consumed or the
file is exhausted, reading at most `BUFFER_SIZE` bytes per iteration.
Returns the final state and the total bytes consumed.  The fuel is
chosen large enough to never run out. -/
def hash_only_go (file : List Nat) (limit : Nat) : Nat → Nat → Nat → Nat → Nat × Nat
  | 0, _, c, total => (c, total)
  | fuel + 1, pos, c, total =>
    if total < limit then
      let chunk := (file.drop pos).take (min BUFFER_SIZE (limit - total))
      if chunk.length = 0 then (c, total)
      else hash_only_go file limit fuel (pos + chunk.length)
        (chunk.foldl crc32_update c) (total + chunk.length)
    else (c, total)

/-- Function `hash_only` from `src/io.rs`, started at position `pos` with CRC
state `c`: returns the final state and the number of bytes consumed. -/
def hash_only (file : List Nat) (pos limit c : Nat) : Nat × Nat :=
  hash_only_go file limit (limit + 1) pos c 0

theorem take_min_length (l : List Nat) (k : Nat) : l.take (min k l.length) = l.take k := by
  rcases Nat.le_total k l.length with hc | hc
  · rw [Nat.min_eq_left hc]
  · rw [Nat.min_eq_right hc, List.take_length, List.take_of_length_le hc]

theorem hash_only_go_spec (file : List Nat) (limit : Nat) (fuel pos c total : Nat)
    (hfuel : limit - total < fuel) :
    hash_only_go file limit fuel pos c total
      = (((file.drop pos).take (limit - total)).foldl crc32_update c,
         total + min (limit - total) (file.length - pos)) := by
  induction fuel generalizing pos c total with
  | zero => omega
  | succ fuel ih =>
    show (if _ < _ then _ else _) = _
    have hb : (0:Nat) < BUFFER_SIZE := by norm_num [BUFFER_SIZE]
    by_cases hlt : total < limit
    · rw [if_pos hlt]
      have hlen : ((file.drop pos).take (min BUFFER_SIZE (limit - total))).length
          = min (min BUFFER_SIZE (limit - total)) (file.length - pos) := by
        simp [List.length_take, List.length_drop]
      by_cases h0 : ((file.drop pos).take (min BUFFER_SIZE (limit - total))).length = 0
      · rw [if_pos h0]
        have hfl : file.length - pos = 0 := by omega
        have hnil : (file.drop pos) = [] := List.drop_eq_nil_iff.mpr (by omega)
        rw [hnil]
        simp [hfl]
      · rw [if_neg h0]
        rw [ih (pos + ((file.drop pos).take (min BUFFER_SIZE (limit - total))).length)
          (((file.drop pos).take (min BUFFER_SIZE (limit - total))).foldl crc32_update c)
          (total + ((file.drop pos).take (min BUFFER_SIZE (limit - total))).length)
          (by omega)]
        rw [Prod.mk.injEq]
        constructor
        · have hn : ((file.drop pos).take (min BUFFER_SIZE (limit - total))).length
              ≤ limit - total := by omega
          have harg : limit - total
              = ((file.drop pos).take (min BUFFER_SIZE (limit - total))).length
                + (limit - total
                   - ((file.drop pos).take (min BUFFER_SIZE (limit - total))).length) := by
            omega
          conv_rhs => rw [harg]
          rw [List.take_add, List.foldl_append]
          have hdd : List.drop (pos + ((file.drop pos).take (min BUFFER_SIZE (limit - total))).length) file
              = List.drop ((file.drop pos).take (min BUFFER_SIZE (limit - total))).length
                  (List.drop pos file) := by
            rw [List.drop_drop]
          rw [hdd]
          have harg2 : limit - (total + ((file.drop pos).take (min BUFFER_SIZE (limit - total))).length)
              = limit - total - ((file.drop pos).take (min BUFFER_SIZE (limit - total))).length := by
            omega
          rw [harg2]
          have hch : (file.drop pos).take ((file.drop pos).take (min BUFFER_SIZE (limit - total))).length
              = (file.drop pos).take (min BUFFER_SIZE (limit - total)) := by
            rw [hlen, ← List.length_drop]
            exact take_min_length _ _
          rw [hch]
        · rw [hlen] at h0 ⊢
          omega
    · rw [if_neg hlt]
      have h1 : limit - total = 0 := by omega
      simp [h1]

theorem hash_only_spec (file : List Nat) (pos limit c : Nat) :
    hash_only file pos limit c
      = (((file.drop pos).take limit).foldl crc32_update c,
         min limit (file.length - pos)) := by
  unfold hash_only
  rw [hash_only_go_spec file limit (limit + 1) pos c 0 (by omega)]
  simp

/-- An open file handle: its full contents and the current read position. -/
structure Handle where
  bytes : List Nat
  pos : Nat
deriving DecidableEq

/-- Function `validate_audio` from `src/io.rs` lines 77-86.  The external Lofty
probe is abstracted by `probeOk` (does the probe accept these bytes?)
and `probeConsume` (how many bytes the probe reads from the handle).
The function rewinds, probes, and rewinds again on success. -/
def validate_audio (probeOk : List Nat → Bool) (probeConsume : List Nat → Nat)
    (h : Handle) : Except String Handle :=
  let h1 : Handle := ⟨h.bytes, 0⟩
  if probeOk h1.bytes then
    let h2 : Handle := ⟨h1.bytes, h1.pos + probeConsume h1.bytes⟩
    Except.ok ⟨h2.bytes, 0⟩
  else
    Except.error "This does not sound like music. Unknown format."

/-- TOC encoding of one entry (`src/record.rs` lines 53-58): 4-byte LE
name length, the raw name bytes, 8-byte LE size. -/
def enc_entry (e : List Nat × Nat) : List Nat :=
  u32_le e.1.length ++ e.1 ++ u64_le e.2

/-- TOC encoding of the entry list, in order. -/
def enc_entries : List (List Nat × Nat) → List Nat
  | [] => []
  | e :: rest => enc_entry e ++ enc_entries rest

/-- The full TOC (`src/record.rs` lines 51-58): 4-byte LE entry count
followed by the encoded entries. -/
def toc_bytes (entries : List (List Nat × Nat)) : List Nat :=
  u32_le entries.length ++ enc_entries entries

/-- Concatenation of the payload byte regions, in order. -/
def payloads_data : List (List Nat × List Nat) → List Nat
  | [] => []
  | p :: rest => p.2 ++ payloads_data rest

/-- The validation loop of `record` (`src/record.rs` lines 19-37): each
payload handle is validated by `validate_audio`; on the first failure
the whole operation returns (with no output file created).  On success
it collects the validated handle, the name, and the size taken from the
file metadata (the byte length). -/
def validate_collect (probeOk : List Nat → Bool) (probeConsume : List Nat → Nat) :
    List (List Nat × List Nat) → Option (List (Handle × List Nat × Nat))
  | [] => some []
  | (name, data) :: rest =>
    match validate_audio probeOk probeConsume ⟨data, 0⟩ with
    | Except.error _ => none
    | Except.ok h =>
      match validate_collect probeOk probeConsume rest with
      | none => none
      | some l => some ((h, name, h.bytes.length) :: l)

/-- Concatenation of the payload regions as `record` writes them
(`src/record.rs` lines 72-79): each validated handle is streamed from
its current position by `transfer`. -/
def payloads_flat : List (Handle × List Nat × Nat) → List Nat
  | [] => []
  | f :: rest => transfer f.1.bytes f.1.pos ++ payloads_flat rest

/-- Result of `record`: either it returned during validation, before
`create_file(output_path)` ran (so no output file exists), or it wrote
the given bytes to the output file. -/
inductive RecordResult where
  | abortedNoOutput : RecordResult
  | wrote : List Nat → RecordResult
deriving DecidableEq

/-- Function `record` from `src/record.rs`: validates every payload (aborting
before the output file is created on the first failure), then writes
image bytes, TOC, payload bytes, and finally the 4-byte LE CRC-32 of
everything written so far (the incremental hasher of the source is a
left fold over the written bytes, i.e. `crc32` of the body). -/
def record (probeOk : List Nat → Bool) (probeConsume : List Nat → Nat)
    (image : List Nat) (payloads : List (List Nat × List Nat)) : RecordResult :=
  match validate_collect probeOk probeConsume payloads with
  | none => RecordResult.abortedNoOutput
  | some files =>
    let toc := toc_bytes (files.map (fun f => (f.2.1, f.2.2)))
    let body := transfer image 0 ++ toc ++ payloads_flat files
    RecordResult.wrote (body ++ u32_le (crc32 body))

/-- Closed form of a successful `record`: the container layout
`image ++ TOC ++ payloads ++ CRC trailer`. -/
def record_bytes (image : List Nat) (payloads : List (List Nat × List Nat)) : List Nat :=
  let toc := toc_bytes (payloads.map (fun p => (p.1, p.2.length)))
  let body := image ++ toc ++ payloads_data payloads
  body ++ u32_le (crc32 body)

/-- The TOC-entry decode loop shared by `src/extract.rs` lines 48-61,
`src/inspect.rs` lines 69-82 and `src/playback.rs` lines 44-59: for each
entry read a 4-byte LE name length, that many name bytes, and an 8-byte
LE size (every read is `read_exact(..).unwrap()`, so a short read is a
panic, modelled as `none`).  Returns the entries and the position after
the TOC (the `audio_start` of the source). -/
def parse_entries (file : List Nat) : Nat → Nat → Option (List (List Nat × Nat) × Nat)
  | pos, 0 => some ([], pos)
  | pos, n + 1 =>
    match readBytes file pos 4 with
    | none => none
    | some lenb =>
      let nameLen := le_decode lenb
      match readBytes file (pos + 4) nameLen with
      | none => none
      | some name =>
        match readBytes file (pos + 4 + nameLen) 8 with
        | none => none
        | some sizeb =>
          match parse_entries file (pos + 4 + nameLen + 8) n with
          | none => none
          | some (rest, fin) => some ((name, le_decode sizeb) :: rest, fin)

/-- Outcome of `extract` (`src/extract.rs`).  `panicked` is a
`.unwrap()` failure on a read; the other constructors are the
early-return log-and-exit paths; `ok` carries the track bytes written
to the output file. -/
inductive ExtractResult where
  | panicked : ExtractResult
  | noMarker : ExtractResult
  | blankCassette : ExtractResult
  | indexOutOfRange : ExtractResult
  | ok : List Nat → ExtractResult
deriving DecidableEq

/-- Function `extract` from `src/extract.rs` lines 13-90: find the marker, read
the 4-byte LE track count, reject count zero ("blank cassette"), reject
a 1-based index outside `[1, track_count]`, decode the TOC, accumulate
the sizes of the preceding tracks onto `audio_start`, and read exactly
`size` bytes at the resolved offset. -/
def extract (file : List Nat) (trackNumber : Nat) : ExtractResult :=
  match find_iend file with
  | none => ExtractResult.noMarker
  | some tocPos =>
    match readBytes file tocPos 4 with
    | none => ExtractResult.panicked
    | some countb =>
      let trackCount := le_decode countb
      if trackCount = 0 then ExtractResult.blankCassette
      else if trackNumber = 0 ∨ trackCount < trackNumber then ExtractResult.indexOutOfRange
      else
        match parse_entries file (tocPos + 4) trackCount with
        | none => ExtractResult.panicked
        | some (entries, audioStart) =>
          match entries[trackNumber - 1]? with
          | none => ExtractResult.panicked
          | some entry =>
            let trackOffset := audioStart + ((entries.take (trackNumber - 1)).map Prod.snd).sum
            match readBytes file trackOffset entry.2 with
            | none => ExtractResult.panicked
            | some data => ExtractResult.ok data

/-- The metadata loop of `inspect` (`src/inspect.rs` lines 85-110): each
track's `size` bytes are read into memory with
`read_exact(..).unwrap()`; a short read is a panic.  The probe itself
only affects the log text. -/
def check_payloads (file : List Nat) : Nat → List (List Nat × Nat) → Bool
  | _, [] => true
  | off, e :: rest =>
    match readBytes file off e.2 with
    | none => false
    | some _ => check_payloads file (off + e.2) rest

/-- Outcome of `inspect` (`src/inspect.rs`): `ok` carries the decoded
TOC entries that the listing loop prints. -/
inductive InspectResult where
  | panicked : InspectResult
  | tooSmall : InspectResult
  | checksumMismatch : InspectResult
  | noMarker : InspectResult
  | ok : List (List Nat × Nat) → InspectResult
deriving DecidableEq

/-- Function `inspect` from `src/inspect.rs` lines 20-110: reject files under 4
bytes, hash all bytes but the last 4 with `hash_only` (the read cursor
then sits at the consumed count), read the 4-byte LE stored CRC and
compare, find the marker, read the count, decode the TOC, then read
each track's bytes for metadata probing. -/
def inspect (file : List Nat) : InspectResult :=
  if file.length < 4 then InspectResult.tooSmall
  else
    let dataLen := file.length - 4
    let hashed := hash_only file 0 dataLen 0xFFFFFFFF
    match readBytes file hashed.2 4 with
    | none => InspectResult.panicked
    | some crcb =>
      if hashed.1 ^^^ 0xFFFFFFFF ≠ le_decode crcb then InspectResult.checksumMismatch
      else
        match find_iend file with
        | none => InspectResult.noMarker
        | some tocPos =>
          match readBytes file tocPos 4 with
          | none => InspectResult.panicked
          | some countb =>
            let trackCount := le_decode countb
            match parse_entries file (tocPos + 4) trackCount with
            | none => InspectResult.panicked
            | some (entries, audioStart) =>
              if check_payloads file audioStart entries then InspectResult.ok entries
              else InspectResult.panicked

/-- Offset resolution from `src/playback.rs` lines 61-68 (the same
accumulation appears in `src/extract.rs` lines 62-67): `offsets[0]` is
the payload region start and each further offset adds the previous
entry's size.  The accumulator is a `u64`, so `offset += size` wraps
modulo `2^64` (the release-build semantics of the source; a debug
build would panic at the same inputs).  Pure accumulation, no I/O. -/
def resolve_offsets : List Nat → Nat → List Nat
  | [], _ => []
  | s :: rest, off => off :: resolve_offsets rest ((off + s) % 18446744073709551616)

theorem enc_entry_length (e : List Nat × Nat) :
    (enc_entry e).length = 12 + e.1.length := by
  simp [enc_entry, u32_le, u64_le]
  omega

theorem parse_entries_append (entries : List (List Nat × Nat)) :
    ∀ (pre suf : List Nat),
      (∀ e ∈ entries, e.1.length < 4294967296 ∧ e.2 < 18446744073709551616) →
      parse_entries (pre ++ (enc_entries entries ++ suf)) pre.length entries.length
        = some (entries, pre.length + (enc_entries entries).length) := by
  induction entries with
  | nil =>
    intro pre suf hb
    simp [parse_entries, enc_entries]
  | cons e rest ih =>
    intro pre suf hb
    obtain ⟨nm, sz⟩ := e
    have hnm : nm.length < 4294967296 := (hb _ (List.mem_cons_self _ _)).1
    have hsz : sz < 18446744073709551616 := (hb _ (List.mem_cons_self _ _)).2
    have hF1 : pre ++ (enc_entries ((nm, sz) :: rest) ++ suf)
        = pre ++ u32_le nm.length ++ (nm ++ (u64_le sz ++ (enc_entries rest ++ suf))) := by
      simp [enc_entries, enc_entry, List.append_assoc]
    have hF2 : pre ++ (enc_entries ((nm, sz) :: rest) ++ suf)
        = (pre ++ u32_le nm.length) ++ nm ++ (u64_le sz ++ (enc_entries rest ++ suf)) := by
      simp [enc_entries, enc_entry, List.append_assoc]
    have hF3 : pre ++ (enc_entries ((nm, sz) :: rest) ++ suf)
        = (pre ++ u32_le nm.length ++ nm) ++ u64_le sz ++ (enc_entries rest ++ suf) := by
      simp [enc_entries, enc_entry, List.append_assoc]
    have hF4 : pre ++ (enc_entries ((nm, sz) :: rest) ++ suf)
        = (pre ++ enc_entry (nm, sz)) ++ (enc_entries rest ++ suf) := by
      simp [enc_entries, List.append_assoc]
    have r1 : readBytes (pre ++ (enc_entries ((nm, sz) :: rest) ++ suf)) pre.length 4
        = some (u32_le nm.length) := by
      rw [hF1]; exact readBytes_at pre (u32_le nm.length) _
    have r2 : readBytes (pre ++ (enc_entries ((nm, sz) :: rest) ++ suf))
        (pre.length + 4) nm.length = some nm := by
      rw [hF2]
      have h := readBytes_at (pre ++ u32_le nm.length) nm
        (u64_le sz ++ (enc_entries rest ++ suf))
      simpa [u32_le] using h
    have r3 : readBytes (pre ++ (enc_entries ((nm, sz) :: rest) ++ suf))
        (pre.length + 4 + nm.length) 8 = some (u64_le sz) := by
      rw [hF3]
      have h := readBytes_at (pre ++ u32_le nm.length ++ nm) (u64_le sz)
        (enc_entries rest ++ suf)
      have hl3 : (pre ++ u32_le nm.length ++ nm).length = pre.length + 4 + nm.length := by
        rw [List.length_append, List.length_append, u32_le_length]
      rw [hl3] at h
      exact h
    have rrec : parse_entries (pre ++ (enc_entries ((nm, sz) :: rest) ++ suf))
        (pre.length + 4 + nm.length + 8) rest.length
        = some (rest, pre.length + 4 + nm.length + 8 + (enc_entries rest).length) := by
      rw [hF4]
      have h := ih (pre ++ enc_entry (nm, sz)) suf
        (fun x hx => hb x (List.mem_cons_of_mem _ hx))
      have hl : (pre ++ enc_entry (nm, sz)).length = pre.length + 4 + nm.length + 8 := by
        simp [enc_entry_length]; omega
      rw [hl] at h
      exact h
    have hdec : le_decode (u32_le nm.length) = nm.length := by
      rw [le_decode_u32, Nat.mod_eq_of_lt hnm]
    show parse_entries (pre ++ (enc_entries ((nm, sz) :: rest) ++ suf))
        pre.length (rest.length + 1) = _
    rw [parse_entries, r1]
    simp only [hdec, r2, r3, rrec, le_decode_u64, Nat.mod_eq_of_lt hsz]
    have hlen2 : (enc_entries ((nm, sz) :: rest)).length
        = 12 + nm.length + (enc_entries rest).length := by
      simp [enc_entries, enc_entry_length]
    rw [hlen2]
    simp only [Option.some.injEq, Prod.mk.injEq]
    exact ⟨trivial, by omega⟩

theorem payloads_data_length (ps : List (List Nat × List Nat)) :
    (payloads_data ps).length = (ps.map (fun p => p.2.length)).sum := by
  induction ps with
  | nil => simp [payloads_data]
  | cons p rest ih => simp [payloads_data, ih]

theorem payload_read (ps : List (List Nat × List Nat)) :
    ∀ (pre suf : List Nat) (i : Nat) (p : List Nat × List Nat), ps[i]? = some p →
      readBytes (pre ++ (payloads_data ps ++ suf))
        (pre.length + ((ps.take i).map (fun q => q.2.length)).sum) p.2.length
        = some p.2 := by
  induction ps with
  | nil => intro pre suf i p hp; simp at hp
  | cons q rest ih =>
    intro pre suf i p hp
    match i with
    | 0 =>
      obtain rfl : q = p := by simpa using hp
      have hF : pre ++ (payloads_data (q :: rest) ++ suf)
          = pre ++ q.2 ++ (payloads_data rest ++ suf) := by
        simp [payloads_data, List.append_assoc]
      rw [hF]
      simpa using readBytes_at pre q.2 (payloads_data rest ++ suf)
    | i + 1 =>
      simp only [List.getElem?_cons_succ] at hp
      have hF : pre ++ (payloads_data (q :: rest) ++ suf)
          = (pre ++ q.2) ++ (payloads_data rest ++ suf) := by
        simp [payloads_data, List.append_assoc]
      rw [hF]
      have h := ih (pre ++ q.2) suf i p hp
      have harith : (pre ++ q.2).length + ((rest.take i).map (fun q => q.2.length)).sum
          = pre.length + (((q :: rest).take (i + 1)).map (fun q => q.2.length)).sum := by
        simp [List.length_append]
        omega
      rw [harith] at h
      exact h

theorem check_payloads_record (ps : List (List Nat × List Nat)) :
    ∀ (pre suf : List Nat),
      check_payloads (pre ++ (payloads_data ps ++ suf)) pre.length
        (ps.map (fun p => (p.1, p.2.length))) = true := by
  induction ps with
  | nil => intro pre suf; simp [check_payloads]
  | cons q rest ih =>
    intro pre suf
    have hF : pre ++ (payloads_data (q :: rest) ++ suf)
        = pre ++ q.2 ++ (payloads_data rest ++ suf) := by
      simp [payloads_data, List.append_assoc]
    show check_payloads _ _ ((q.1, q.2.length) :: rest.map (fun p => (p.1, p.2.length))) = true
    rw [check_payloads, hF]
    rw [readBytes_at pre q.2 (payloads_data rest ++ suf)]
    have h := ih (pre ++ q.2) suf
    have hl : (pre ++ q.2).length = pre.length + q.2.length := by simp
    rw [hl] at h
    exact h

theorem validate_audio_ok_iff (probeOk : List Nat → Bool) (probeConsume : List Nat → Nat)
    (data : List Nat) (h : Handle) :
    validate_audio probeOk probeConsume ⟨data, 0⟩ = Except.ok h
      ↔ (probeOk data = true ∧ h = ⟨data, 0⟩) := by
  unfold validate_audio
  by_cases hp : probeOk data
  · simp [hp, eq_comm]
  · simp [hp]

theorem validate_collect_ok (probeOk : List Nat → Bool) (probeConsume : List Nat → Nat)
    (ps : List (List Nat × List Nat)) (h : ∀ p ∈ ps, probeOk p.2 = true) :
    validate_collect probeOk probeConsume ps
      = some (ps.map (fun p => (⟨p.2, 0⟩, p.1, p.2.length))) := by
  induction ps with
  | nil => simp [validate_collect]
  | cons q rest ih =>
    obtain ⟨name, data⟩ := q
    have hq : probeOk data = true := h _ (List.mem_cons_self _ _)
    have hv : validate_audio probeOk probeConsume ⟨data, 0⟩ = Except.ok ⟨data, 0⟩ := by
      rw [validate_audio_ok_iff]
      exact ⟨hq, rfl⟩
    show validate_collect _ _ ((name, data) :: rest) = _
    rw [validate_collect, hv, ih (fun p hp => h p (List.mem_cons_of_mem _ hp))]
    rfl

theorem validate_collect_fail (probeOk : List Nat → Bool) (probeConsume : List Nat → Nat)
    (ps : List (List Nat × List Nat)) (h : ∃ p ∈ ps, probeOk p.2 = false) :
    validate_collect probeOk probeConsume ps = none := by
  induction ps with
  | nil => simp at h
  | cons q rest ih =>
    obtain ⟨name, data⟩ := q
    show validate_collect _ _ ((name, data) :: rest) = none
    rw [validate_collect]
    by_cases hp : probeOk data
    · have hv : validate_audio probeOk probeConsume ⟨data, 0⟩ = Except.ok ⟨data, 0⟩ := by
        rw [validate_audio_ok_iff]
        exact ⟨hp, rfl⟩
      rw [hv]
      have hrest : ∃ p ∈ rest, probeOk p.2 = false := by
        obtain ⟨p, hmem, hfl⟩ := h
        rcases List.mem_cons.mp hmem with heq | hmem2
        · exfalso
          rw [heq] at hfl
          simp at hfl
          rw [hfl] at hp
          simp at hp
        · exact ⟨p, hmem2, hfl⟩
      rw [ih hrest]
    · have hv : validate_audio probeOk probeConsume ⟨data, 0⟩
          = Except.error "This does not sound like music. Unknown format." := by
        unfold validate_audio
        simp [hp]
      rw [hv]

theorem validate_collect_some (probeOk : List Nat → Bool) (probeConsume : List Nat → Nat)
    (ps : List (List Nat × List Nat)) (files : List (Handle × List Nat × Nat))
    (h : validate_collect probeOk probeConsume ps = some files) :
    files = ps.map (fun p => (⟨p.2, 0⟩, p.1, p.2.length)) := by
  induction ps generalizing files with
  | nil =>
    simp [validate_collect] at h
    simp [h.symm]
  | cons q rest ih =>
    obtain ⟨name, data⟩ := q
    rw [show validate_collect probeOk probeConsume ((name, data) :: rest)
        = match validate_audio probeOk probeConsume ⟨data, 0⟩ with
          | Except.error _ => none
          | Except.ok hh =>
            match validate_collect probeOk probeConsume rest with
            | none => none
            | some l => some ((hh, name, hh.bytes.length) :: l) from rfl] at h
    rcases hva : validate_audio probeOk probeConsume ⟨data, 0⟩ with e | hh
    · rw [hva] at h; exact absurd h (by simp)
    · rw [hva] at h
      obtain ⟨hpk, rfl⟩ := (validate_audio_ok_iff probeOk probeConsume data hh).mp hva
      rcases hvc : validate_collect probeOk probeConsume rest with _ | l
      · rw [hvc] at h; exact absurd h (by simp)
      · rw [hvc] at h
        simp only [Option.some.injEq] at h
        rw [← h, ih l hvc]
        rfl

theorem payloads_flat_map (ps : List (List Nat × List Nat)) :
    payloads_flat (ps.map (fun p => (⟨p.2, 0⟩, p.1, p.2.length))) = payloads_data ps := by
  induction ps with
  | nil => rfl
  | cons q rest ih =>
    show transfer q.2 0 ++ _ = _
    rw [transfer_eq_drop, List.drop_zero, ih]
    rfl

theorem record_wrote (probeOk : List Nat → Bool) (probeConsume : List Nat → Nat)
    (image : List Nat) (ps : List (List Nat × List Nat))
    (h : ∀ p ∈ ps, probeOk p.2 = true) :
    record probeOk probeConsume image ps
      = RecordResult.wrote (record_bytes image ps) := by
  unfold record record_bytes
  rw [validate_collect_ok probeOk probeConsume ps h]
  simp only [List.map_map]
  rw [payloads_flat_map, transfer_eq_drop, List.drop_zero]
  rfl

theorem record_wrote_inv (probeOk : List Nat → Bool) (probeConsume : List Nat → Nat)
    (image : List Nat) (ps : List (List Nat × List Nat)) (out : List Nat)
    (h : record probeOk probeConsume image ps = RecordResult.wrote out) :
    out = record_bytes image ps := by
  unfold record at h
  rcases hvc : validate_collect probeOk probeConsume ps with _ | files
  · rw [hvc] at h; exact absurd h (by simp)
  · rw [hvc] at h
    rw [validate_collect_some probeOk probeConsume ps files hvc] at h
    simp only [RecordResult.wrote.injEq] at h
    rw [← h]
    unfold record_bytes
    simp only [List.map_map]
    rw [payloads_flat_map, transfer_eq_drop, List.drop_zero]
    rfl

theorem toc_bytes_length (entries : List (List Nat × Nat)) :
    (toc_bytes entries).length = 4 + (enc_entries entries).length := by
  simp [toc_bytes, u32_le]
  omega

theorem record_bytes_count_read (image : List Nat) (ps : List (List Nat × List Nat)) :
    readBytes (record_bytes image ps) image.length 4
      = some (u32_le ps.length) := by
  have hF : record_bytes image ps
      = image ++ u32_le ps.length
        ++ (enc_entries (ps.map (fun p => (p.1, p.2.length))) ++ (payloads_data ps
            ++ u32_le (crc32 (image ++ toc_bytes (ps.map (fun p => (p.1, p.2.length)))
                ++ payloads_data ps)))) := by
    unfold record_bytes toc_bytes
    simp [List.append_assoc, List.length_map]
  rw [hF]
  exact readBytes_at image (u32_le ps.length) _

theorem record_bytes_parse (image : List Nat) (ps : List (List Nat × List Nat))
    (hbounds : ∀ p ∈ ps, p.1.length < 4294967296 ∧ p.2.length < 18446744073709551616) :
    parse_entries (record_bytes image ps) (image.length + 4) ps.length
      = some (ps.map (fun p => (p.1, p.2.length)),
          image.length + 4 + (enc_entries (ps.map (fun p => (p.1, p.2.length)))).length) := by
  have hF : record_bytes image ps
      = (image ++ u32_le ps.length)
        ++ (enc_entries (ps.map (fun p => (p.1, p.2.length))) ++ (payloads_data ps
            ++ u32_le (crc32 (image ++ toc_bytes (ps.map (fun p => (p.1, p.2.length)))
                ++ payloads_data ps)))) := by
    unfold record_bytes toc_bytes
    simp [List.append_assoc, List.length_map]
  have hb2 : ∀ e ∈ ps.map (fun p => (p.1, p.2.length)),
      e.1.length < 4294967296 ∧ e.2 < 18446744073709551616 := by
    intro e he
    obtain ⟨p, hp, rfl⟩ := List.mem_map.mp he
    exact hbounds p hp
  have h := parse_entries_append (ps.map (fun p => (p.1, p.2.length)))
    (image ++ u32_le ps.length)
    (payloads_data ps
      ++ u32_le (crc32 (image ++ toc_bytes (ps.map (fun p => (p.1, p.2.length)))
          ++ payloads_data ps))) hb2
  rw [← hF] at h
  have hl : (image ++ u32_le ps.length).length = image.length + 4 := by
    simp [u32_le]
  rw [hl, List.length_map] at h
  exact h

theorem record_bytes_payload_read (image : List Nat) (ps : List (List Nat × List Nat))
    (i : Nat) (p : List Nat × List Nat) (hp : ps[i]? = some p) :
    readBytes (record_bytes image ps)
      (image.length + (toc_bytes (ps.map (fun q => (q.1, q.2.length)))).length
        + ((ps.take i).map (fun q => q.2.length)).sum) p.2.length
      = some p.2 := by
  have hF : record_bytes image ps
      = (image ++ toc_bytes (ps.map (fun q => (q.1, q.2.length))))
        ++ (payloads_data ps
            ++ u32_le (crc32 (image ++ toc_bytes (ps.map (fun q => (q.1, q.2.length)))
                ++ payloads_data ps))) := by
    unfold record_bytes
    simp [List.append_assoc]
  have h := payload_read ps (image ++ toc_bytes (ps.map (fun q => (q.1, q.2.length))))
    (u32_le (crc32 (image ++ toc_bytes (ps.map (fun q => (q.1, q.2.length)))
        ++ payloads_data ps))) i p hp
  rw [← hF] at h
  have hl : (image ++ toc_bytes (ps.map (fun q => (q.1, q.2.length)))).length
      = image.length + (toc_bytes (ps.map (fun q => (q.1, q.2.length)))).length := by
    simp
  rw [hl] at h
  exact h

theorem extract_record_char (image : List Nat) (ps : List (List Nat × List Nat))
    (hscan : find_iend (record_bytes image ps) = some image.length)
    (hN : ps.length < 4294967296)
    (hbounds : ∀ p ∈ ps, p.1.length < 4294967296 ∧ p.2.length < 18446744073709551616)
    (tn : Nat) :
    extract (record_bytes image ps) tn
      = if ps.length = 0 then ExtractResult.blankCassette
        else if tn = 0 ∨ ps.length < tn then ExtractResult.indexOutOfRange
        else
          match ps[tn - 1]? with
          | none => ExtractResult.panicked
          | some p => ExtractResult.ok p.2 := by
  unfold extract
  simp only [hscan, record_bytes_count_read image ps, le_decode_u32, Nat.mod_eq_of_lt hN]
  by_cases hz : ps.length = 0
  · rw [if_pos hz, if_pos hz]
  · rw [if_neg hz, if_neg hz]
    by_cases hoor : tn = 0 ∨ ps.length < tn
    · rw [if_pos hoor, if_pos hoor]
    · rw [if_neg hoor, if_neg hoor]
      have hidx : tn - 1 < ps.length := by omega
      have hps : ps[tn - 1]? = some (ps.get ⟨tn - 1, hidx⟩) :=
        List.getElem?_eq_getElem hidx
      have hget : (ps.map (fun p => (p.1, p.2.length)))[tn - 1]?
          = some ((ps.get ⟨tn - 1, hidx⟩).1, (ps.get ⟨tn - 1, hidx⟩).2.length) := by
        rw [List.getElem?_map, hps]
        rfl
      have hread := record_bytes_payload_read image ps (tn - 1) (ps.get ⟨tn - 1, hidx⟩) hps
      have hmaps : (((ps.map (fun p => (p.1, p.2.length))).take (tn - 1)).map Prod.snd).sum
          = ((ps.take (tn - 1)).map (fun q => q.2.length)).sum := by
        simp [List.map_take, List.map_map, Function.comp_def]
      have hpos : image.length + 4
            + (enc_entries (ps.map (fun p => (p.1, p.2.length)))).length
            + ((ps.take (tn - 1)).map (fun q => q.2.length)).sum
          = image.length + (toc_bytes (ps.map (fun q => (q.1, q.2.length)))).length
            + ((ps.take (tn - 1)).map (fun q => q.2.length)).sum := by
        rw [toc_bytes_length]
        omega
      simp only [record_bytes_parse image ps hbounds, hget, hps, hmaps]
      rw [hpos, hread]

theorem inspect_record_ok (image : List Nat) (ps : List (List Nat × List Nat))
    (hscan : find_iend (record_bytes image ps) = some image.length)
    (hN : ps.length < 4294967296)
    (hbounds : ∀ p ∈ ps, p.1.length < 4294967296 ∧ p.2.length < 18446744073709551616) :
    inspect (record_bytes image ps)
      = InspectResult.ok (ps.map (fun p => (p.1, p.2.length))) := by
  have hsplit : record_bytes image ps
      = (image ++ toc_bytes (ps.map (fun p => (p.1, p.2.length))) ++ payloads_data ps)
        ++ u32_le (crc32 (image ++ toc_bytes (ps.map (fun p => (p.1, p.2.length)))
            ++ payloads_data ps)) := rfl
  have hlen_file : (record_bytes image ps).length
      = (image ++ toc_bytes (ps.map (fun p => (p.1, p.2.length))) ++ payloads_data ps).length
        + 4 := by
    rw [hsplit]
    simp [u32_le]
    omega
  have h4 : ¬ (record_bytes image ps).length < 4 := by omega
  have hdl : (record_bytes image ps).length - 4
      = (image ++ toc_bytes (ps.map (fun p => (p.1, p.2.length))) ++ payloads_data ps).length := by
    omega
  have hhash : hash_only (record_bytes image ps) 0 ((record_bytes image ps).length - 4) 0xFFFFFFFF
      = ((image ++ toc_bytes (ps.map (fun p => (p.1, p.2.length))) ++ payloads_data ps).foldl
           crc32_update 0xFFFFFFFF,
         (image ++ toc_bytes (ps.map (fun p => (p.1, p.2.length))) ++ payloads_data ps).length) := by
    rw [hash_only_spec, hdl]
    rw [Prod.mk.injEq]
    constructor
    · rw [List.drop_zero]
      conv_lhs => rw [hsplit, List.take_left]
    · rw [Nat.sub_zero]
      omega
  have hcrcread : readBytes (record_bytes image ps)
      (image ++ toc_bytes (ps.map (fun p => (p.1, p.2.length))) ++ payloads_data ps).length 4
      = some (u32_le (crc32 (image ++ toc_bytes (ps.map (fun p => (p.1, p.2.length)))
          ++ payloads_data ps))) := by
    conv_lhs => rw [hsplit]
    have h := readBytes_at
      (image ++ toc_bytes (ps.map (fun p => (p.1, p.2.length))) ++ payloads_data ps)
      (u32_le (crc32 (image ++ toc_bytes (ps.map (fun p => (p.1, p.2.length)))
          ++ payloads_data ps))) []
    simpa using h
  have hcheck : check_payloads (record_bytes image ps)
      (image.length + 4 + (enc_entries (ps.map (fun p => (p.1, p.2.length)))).length)
      (ps.map (fun p => (p.1, p.2.length))) = true := by
    have h := check_payloads_record ps
      (image ++ toc_bytes (ps.map (fun p => (p.1, p.2.length))))
      (u32_le (crc32 (image ++ toc_bytes (ps.map (fun p => (p.1, p.2.length)))
          ++ payloads_data ps)))
    have hfile : (image ++ toc_bytes (ps.map (fun p => (p.1, p.2.length))))
        ++ (payloads_data ps
            ++ u32_le (crc32 (image ++ toc_bytes (ps.map (fun p => (p.1, p.2.length)))
                ++ payloads_data ps)))
        = record_bytes image ps := by
      rw [hsplit]
      simp [List.append_assoc]
    have hpos2 : (image ++ toc_bytes (ps.map (fun p => (p.1, p.2.length)))).length
        = image.length + 4 + (enc_entries (ps.map (fun p => (p.1, p.2.length)))).length := by
      simp [toc_bytes_length]
      omega
    rw [hfile, hpos2] at h
    exact h
  unfold inspect
  rw [if_neg h4]
  simp only [hhash, hcrcread, le_decode_u32,
    Nat.mod_eq_of_lt (crc32_lt (image ++ toc_bytes (ps.map (fun p => (p.1, p.2.length)))
        ++ payloads_data ps))]
  have hfold : (image ++ toc_bytes (ps.map (fun p => (p.1, p.2.length)))
        ++ payloads_data ps).foldl crc32_update 0xFFFFFFFF ^^^ 0xFFFFFFFF
      = crc32 (image ++ toc_bytes (ps.map (fun p => (p.1, p.2.length))) ++ payloads_data ps) :=
    rfl
  rw [hfold]
  rw [if_neg (by simp)]
  simp only [hscan, record_bytes_count_read image ps, le_decode_u32, Nat.mod_eq_of_lt hN,
    record_bytes_parse image ps hbounds, hcheck, if_true]

theorem scanChunk_sound (chunk : List Nat) (i : Nat) (h : scanChunk chunk = some i) :
    i + IEND_CHUNK.length ≤ chunk.length
      ∧ (chunk.drop i).take IEND_CHUNK.length = IEND_CHUNK := by
  unfold scanChunk at h
  by_cases hle : IEND_CHUNK.length ≤ chunk.length
  · rw [if_pos hle] at h
    have hp := List.find?_some h
    have hm := List.mem_of_find?_eq_some h
    rw [List.mem_range] at hm
    simp only [decide_eq_true_eq] at hp
    have hI : IEND_CHUNK.length = 12 := rfl
    exact ⟨by omega, hp⟩
  · rw [if_neg hle] at h
    exact absurd h (by simp)

theorem find_iend_loop_sound (file : List Nat) (fuel : Nat) :
    ∀ (pos off : Nat), find_iend_loop file fuel pos = some off →
      pos + IEND_CHUNK.length ≤ off
        ∧ (file.drop (off - IEND_CHUNK.length)).take IEND_CHUNK.length = IEND_CHUNK := by
  induction fuel with
  | zero => intro pos off h; exact absurd h (by simp [find_iend_loop])
  | succ fuel ih =>
    intro pos off h
    rw [find_iend_loop] at h
    by_cases h0 : ((file.drop pos).take BUFFER_SIZE).length = 0
    · rw [if_pos h0] at h
      exact absurd h (by simp)
    · rw [if_neg h0] at h
      rcases hscan : scanChunk ((file.drop pos).take BUFFER_SIZE) with _ | i
      · rw [hscan] at h
        have := ih (pos + ((file.drop pos).take BUFFER_SIZE).length) off h
        exact ⟨by omega, this.2⟩
      · rw [hscan] at h
        simp only [Option.some.injEq] at h
        obtain ⟨hle, hwin⟩ := scanChunk_sound _ i hscan
        have hI : IEND_CHUNK.length = 12 := rfl
        have hchl : ((file.drop pos).take BUFFER_SIZE).length
            = min BUFFER_SIZE (file.length - pos) := by
          simp [List.length_take, List.length_drop]
        have hdt : (((file.drop pos).take BUFFER_SIZE).drop i)
            = ((file.drop pos).drop i).take (BUFFER_SIZE - i) :=
          List.drop_take BUFFER_SIZE i (file.drop pos)
        rw [hdt, List.take_take] at hwin
        have hmin : min IEND_CHUNK.length (BUFFER_SIZE - i) = IEND_CHUNK.length := by
          rw [hI]
          have hb : BUFFER_SIZE = 16384 := rfl
          omega
        rw [hmin, List.drop_drop] at hwin
        constructor
        · omega
        · have hoff : off - IEND_CHUNK.length = pos + i := by omega
          rw [hoff]
          exact hwin

theorem find_iend_sound (file : List Nat) (off : Nat) (h : find_iend file = some off) :
    IEND_CHUNK.length ≤ off
      ∧ (file.drop (off - IEND_CHUNK.length)).take IEND_CHUNK.length = IEND_CHUNK := by
  have := find_iend_loop_sound file (file.length + 1) 0 off h
  exact ⟨by omega, this.2⟩

/-- A file in which the only occurrence of the marker straddles the
boundary between the first and second `BUFFER_SIZE`-byte reads (split
position 4): bytes 16380..16392 hold the marker, everything else is
`0xFF`. -/
def straddleFile : List Nat :=
  List.replicate 16380 255 ++ IEND_CHUNK ++ List.replicate 4 255

theorem straddleFile_split : straddleFile
    = (List.replicate 16380 255 ++ [0, 0, 0, 0])
      ++ ([73, 69, 78, 68, 174, 66, 96, 130] ++ List.replicate 4 255) := by
  show List.replicate 16380 255 ++ IEND_CHUNK ++ List.replicate 4 255 = _
  rw [show IEND_CHUNK = [0, 0, 0, 0] ++ [73, 69, 78, 68, 174, 66, 96, 130] from rfl]
  simp only [List.append_assoc, List.cons_append, List.nil_append]

theorem straddleFile_first_chunk_length :
    (List.replicate 16380 (255:Nat) ++ [0, 0, 0, 0]).length = 16384 := by
  simp only [List.length_append, List.length_replicate, List.length_cons, List.length_nil]

theorem straddleFile_length : straddleFile.length = 16396 := by
  rw [straddleFile_split]
  simp only [List.length_append, List.length_replicate, List.length_cons, List.length_nil]

theorem straddleFile_marker_present :
    (straddleFile.drop 16380).take IEND_CHUNK.length = IEND_CHUNK := by
  have hassoc : straddleFile
      = List.replicate 16380 255 ++ (IEND_CHUNK ++ List.replicate 4 255) := by
    show List.replicate 16380 255 ++ IEND_CHUNK ++ List.replicate 4 255 = _
    rw [List.append_assoc]
  rw [hassoc]
  rw [List.drop_left' (by rw [List.length_replicate])]
  rw [List.take_left' rfl]

theorem scanChunk_straddle_first :
    scanChunk (List.replicate 16380 255 ++ [0, 0, 0, 0]) = none := by
  unfold scanChunk
  rw [if_pos (by rw [straddleFile_first_chunk_length]; norm_num [IEND_CHUNK])]
  rw [List.find?_eq_none]
  intro i hi
  rw [List.mem_range, straddleFile_first_chunk_length] at hi
  simp only [decide_eq_true_eq]
  intro heq
  have hi2 : i < 16373 := by
    have hI : IEND_CHUNK.length = 12 := rfl
    omega
  have h0 := congrArg (fun l => l[0]?) heq
  simp only [List.getElem?_take, List.getElem?_drop] at h0
  have hpos : (0:Nat) < IEND_CHUNK.length := by norm_num [IEND_CHUNK]
  rw [if_pos hpos] at h0
  have hCi : (List.replicate 16380 (255:Nat) ++ [0, 0, 0, 0])[i + 0]? = some 255 := by
    rw [List.getElem?_append_left (by rw [List.length_replicate]; omega)]
    rw [List.getElem?_replicate]
    rw [if_pos (by omega)]
  rw [hCi] at h0
  have hiend0 : IEND_CHUNK[0]? = some 0 := rfl
  rw [hiend0] at h0
  simp at h0

theorem scanChunk_straddle_second :
    scanChunk [73, 69, 78, 68, 174, 66, 96, 130, 255, 255, 255, 255] = none := by
  decide

theorem straddleFile_second_chunk :
    straddleFile.drop 16384 = [73, 69, 78, 68, 174, 66, 96, 130, 255, 255, 255, 255] := by
  rw [straddleFile_split]
  rw [List.drop_left' straddleFile_first_chunk_length]
  rfl

theorem find_iend_straddle : find_iend straddleFile = none := by
  rw [find_iend, straddleFile_length]
  rw [show (16396:Nat) + 1 = 16395 + 1 + 1 from rfl]
  rw [find_iend_loop]
  have hc1 : (straddleFile.drop 0).take BUFFER_SIZE
      = List.replicate 16380 255 ++ [0, 0, 0, 0] := by
    rw [List.drop_zero, straddleFile_split]
    rw [show BUFFER_SIZE = 16384 from rfl]
    rw [List.take_left' straddleFile_first_chunk_length]
  rw [hc1, straddleFile_first_chunk_length]
  rw [if_neg (by norm_num)]
  rw [scanChunk_straddle_first]
  rw [show (16395:Nat) + 1 = 16394 + 1 + 1 from rfl]
  rw [find_iend_loop]
  have hc2 : (straddleFile.drop (0 + 16384)).take BUFFER_SIZE
      = [73, 69, 78, 68, 174, 66, 96, 130, 255, 255, 255, 255] := by
    rw [Nat.zero_add, straddleFile_second_chunk]
    rfl
  rw [hc2]
  rw [show ([73, 69, 78, 68, 174, 66, 96, 130, 255, 255, 255, 255] : List Nat).length = 12
    from rfl]
  rw [if_neg (by norm_num)]
  rw [scanChunk_straddle_second]
  rw [show (16394:Nat) + 1 = 16393 + 1 + 1 from rfl]
  rw [find_iend_loop]
  have hc3 : (straddleFile.drop (0 + 16384 + 12)).take BUFFER_SIZE = [] := by
    have : straddleFile.drop (0 + 16384 + 12) = [] := by
      rw [List.drop_eq_nil_iff, straddleFile_length]
    rw [this]
    rfl
  rw [hc3]
  rfl

theorem record_bytes_length (image : List Nat) (ps : List (List Nat × List Nat)) :
    (record_bytes image ps).length
      = image.length + (toc_bytes (ps.map (fun p => (p.1, p.2.length)))).length
        + (ps.map (fun p => p.2.length)).sum + 4 := by
  unfold record_bytes
  simp only [List.length_append, u32_le_length, payloads_data_length]

theorem record_bytes_trailer (image : List Nat) (ps : List (List Nat × List Nat)) :
    (record_bytes image ps).drop ((record_bytes image ps).length - 4)
      = u32_le (crc32 ((record_bytes image ps).take ((record_bytes image ps).length - 4))) := by
  have hsplit : record_bytes image ps
      = (image ++ toc_bytes (ps.map (fun p => (p.1, p.2.length))) ++ payloads_data ps)
        ++ u32_le (crc32 (image ++ toc_bytes (ps.map (fun p => (p.1, p.2.length)))
            ++ payloads_data ps)) := rfl
  have hlen : (record_bytes image ps).length - 4
      = (image ++ toc_bytes (ps.map (fun p => (p.1, p.2.length))) ++ payloads_data ps).length := by
    conv_lhs => rw [hsplit]
    simp only [List.length_append, u32_le_length]
    omega
  rw [hlen]
  conv_lhs => rw [hsplit, List.drop_left]
  conv_rhs => rw [hsplit, List.take_left]

theorem resolve_offsets_length (sizes : List Nat) :
    ∀ off : Nat, (resolve_offsets sizes off).length = sizes.length := by
  induction sizes with
  | nil => intro off; rfl
  | cons s rest ih =>
    intro off
    show (off :: resolve_offsets rest ((off + s) % 18446744073709551616)).length
        = rest.length + 1
    rw [List.length_cons, ih]

theorem resolve_offsets_get (sizes : List Nat) :
    ∀ (off i : Nat), i < sizes.length →
      (resolve_offsets sizes off)[i]?
        = some ((sizes.take i).foldl
            (fun o s => (o + s) % 18446744073709551616) off) := by
  induction sizes with
  | nil => intro off i hi; simp at hi
  | cons s rest ih =>
    intro off i hi
    match i with
    | 0 => simp [resolve_offsets]
    | i + 1 =>
      show (off :: resolve_offsets rest ((off + s) % 18446744073709551616))[i + 1]? = _
      rw [List.getElem?_cons_succ]
      rw [ih ((off + s) % 18446744073709551616) i (by simpa using Nat.lt_of_succ_lt_succ hi)]
      rw [List.take_succ_cons, List.foldl_cons]

/-- C1: the spec requires the marker scanner to find the 12-byte marker
even when it straddles the boundary between two consecutive
`BUFFER_SIZE`-byte reads, returning the offset just past its first
occurrence (here `Some 16392`).  The code scans each buffer in
isolation and keeps no carry-over bytes, so on `straddleFile` — whose
only marker occurrence spans bytes 16380..16392, split 4/8 across the
two reads — `find_iend` returns `none` even though the marker is
present.  This theorem exhibits the divergence: the marker occurs at
offset 16380, yet the scanner misses it. -/
theorem c1_find_iend_misses_straddling_marker :
    (straddleFile.drop 16380).take 12 = IEND_CHUNK
      ∧ find_iend straddleFile = none := by
  constructor
  · have h := straddleFile_marker_present
    rw [show IEND_CHUNK.length = 12 from rfl] at h
    exact h
  · exact find_iend_straddle

/-- C10: soundness of the marker scanner — whenever `find_iend` returns
`Some offset`, then `offset ≥ 12` and the 12 bytes of the file at
positions `[offset - 12, offset)` are exactly `IEND_CHUNK`; it never
reports a false match. -/
theorem c10_find_iend_sound (file : List Nat) (off : Nat)
    (h : find_iend file = some off) :
    12 ≤ off ∧ (file.drop (off - 12)).take 12 = IEND_CHUNK := by
  have hs := find_iend_sound file off h
  rw [show IEND_CHUNK.length = 12 from rfl] at hs
  exact hs

theorem c10_witness :
    12 ≤ 12 ∧ ((IEND_CHUNK.drop (12 - 12)).take 12 = IEND_CHUNK) :=
  c10_find_iend_sound IEND_CHUNK 12 (by decide)

/-- C7 counterexample: the claim asserts the plain-sum recurrence
`offsets[i] = offsets[i-1] + size[i-1]` for every TOC, but the source
accumulates in `u64` and wraps.  With a forged TOC declaring sizes
`[2^63, 2^63, 5]` — constructible in a tiny real file, since the
decoder performs no size validation — and `P = 0`, the third offset is
`0`, not `offsets[1] + size[1] = 2^64`. -/
theorem c7_counterexample :
    resolve_offsets [9223372036854775808, 9223372036854775808, 5] 0
        = [0, 9223372036854775808, 0]
      ∧ (0 : Nat) ≠ 9223372036854775808 + 9223372036854775808 :=
  ⟨rfl, by norm_num⟩

/-- C7 (amended): offset resolution is a pure accumulation with no I/O
in `u64` arithmetic: one offset per size, `offsets[0] = P`, and each
further offset is the previous offset plus the previous entry's size
reduced modulo `2^64` (the `u64` wrap of the source's
`offset += size`).  The plain-sum reading — in particular the concrete
`[500, 300, 120]` yielding `[P, P + 500, P + 800]` — holds exactly
when the accumulated offsets stay below `2^64`. -/
theorem c7_resolve_offsets_accumulation (P : Nat) :
    (∀ sizes : List Nat, (resolve_offsets sizes P).length = sizes.length)
    ∧ (∀ (s : Nat) (rest : List Nat), (resolve_offsets (s :: rest) P)[0]? = some P)
    ∧ (∀ (sizes : List Nat) (i : Nat), i + 1 < sizes.length →
        (resolve_offsets sizes P)[i + 1]?
          = (resolve_offsets sizes P)[i]?.bind
              (fun o => sizes[i]?.map (fun s => (o + s) % 18446744073709551616)))
    ∧ (P + 800 < 18446744073709551616 →
        resolve_offsets [500, 300, 120] P = [P, P + 500, P + 800]) := by
  refine ⟨fun sizes => resolve_offsets_length sizes P,
    fun s rest => by simp [resolve_offsets], ?_, ?_⟩
  · intro sizes i hi
    have hidx : i < sizes.length := by omega
    rw [resolve_offsets_get sizes P (i + 1) hi,
      resolve_offsets_get sizes P i (by omega),
      List.getElem?_eq_getElem hidx]
    have hsum : (sizes.take (i + 1)).foldl
          (fun o s => (o + s) % 18446744073709551616) P
        = ((sizes.take i).foldl (fun o s => (o + s) % 18446744073709551616) P
            + sizes[i]) % 18446744073709551616 := by
      rw [List.take_succ]
      rw [List.getElem?_eq_getElem hidx]
      rw [List.foldl_append]
      simp
    simp [hsum]
  · intro hP
    show P :: resolve_offsets [300, 120] ((P + 500) % 18446744073709551616) = _
    rw [show (P + 500) % 18446744073709551616 = P + 500 from Nat.mod_eq_of_lt (by omega)]
    show P :: (P + 500)
        :: resolve_offsets [120] ((P + 500 + 300) % 18446744073709551616) = _
    rw [show (P + 500 + 300) % 18446744073709551616 = P + 800 from by
      rw [Nat.mod_eq_of_lt (by omega)]]
    rfl

theorem c7_witness :
    resolve_offsets [500, 300, 120] 100 = [100, 600, 900] := by
  have h := (c7_resolve_offsets_accumulation 100).2.2.2 (by norm_num)
  simpa using h

/-- C9: after `validate_audio` returns `Ok` on a handle, the handle's
read position is 0 (it rewinds before probing and again after a
successful probe), so the subsequent stream copy in `record` transfers
the entire source file, not a suffix left over from probing. -/
theorem c9_validate_audio_rewinds (probeOk : List Nat → Bool)
    (probeConsume : List Nat → Nat) (h h2 : Handle)
    (hok : validate_audio probeOk probeConsume h = Except.ok h2) :
    h2.pos = 0 ∧ h2.bytes = h.bytes ∧ transfer h2.bytes h2.pos = h.bytes := by
  unfold validate_audio at hok
  by_cases hp : probeOk h.bytes
  · simp only [hp, if_true, Except.ok.injEq] at hok
    rw [← hok]
    refine ⟨rfl, rfl, ?_⟩
    rw [transfer_eq_drop, List.drop_zero]
  · simp only [hp] at hok
    exact absurd hok (by simp)

theorem c9_witness :
    validate_audio (fun _ => true) (fun _ => 1) ⟨[1, 2, 3], 2⟩ = Except.ok ⟨[1, 2, 3], 0⟩
      ∧ (⟨[1, 2, 3], 0⟩ : Handle).pos = 0
      ∧ transfer ([1, 2, 3] : List Nat) 0 = [1, 2, 3] := by
  have h := c9_validate_audio_rewinds (fun _ => true) (fun _ => 1)
    ⟨[1, 2, 3], 2⟩ ⟨[1, 2, 3], 0⟩ rfl
  exact ⟨rfl, h.1, h.2.2⟩

/-- C8: if any payload source fails the audio probe, `record` returns
during the validation loop, before `create_file(output_path)` runs: no
output file is created or modified.  Validation of all payloads
strictly precedes creation of the output file in the source. -/
theorem c8_validation_precedes_output (probeOk : List Nat → Bool)
    (probeConsume : List Nat → Nat) (image : List Nat)
    (payloads : List (List Nat × List Nat))
    (hfail : ∃ p ∈ payloads, probeOk p.2 = false) :
    record probeOk probeConsume image payloads = RecordResult.abortedNoOutput := by
  unfold record
  rw [validate_collect_fail probeOk probeConsume payloads hfail]

theorem c8_witness :
    record (fun _ => false) (fun _ => 0) [1, 2] [([97], [9])]
      = RecordResult.abortedNoOutput :=
  c8_validation_precedes_output (fun _ => false) (fun _ => 0) [1, 2] [([97], [9])]
    ⟨([97], [9]), by simp, rfl⟩

/-- A file whose TOC is truncated: the 12-byte marker, a count field
declaring 2 tracks, then a first entry with name length 1 and name
`"a"`, and then end-of-file in the middle of the entry's 8-byte size
field. -/
def truncatedTocFile : List Nat := IEND_CHUNK ++ u32_le 2 ++ u32_le 1 ++ [97]

/-- C3: on a file whose TOC declares more data than the file holds, the
decode loop's `read_exact(..).unwrap()` fails — the engine panics
(modelled as `ExtractResult.panicked`) instead of returning the
`TocTruncated` error the spec requires; it does not silently truncate
the entry list.  `truncatedTocFile` ends inside the first entry's size
field. -/
theorem c3_truncated_toc_panics :
    truncatedTocFile.length = 21
      ∧ parse_entries truncatedTocFile 16 2 = none
      ∧ extract truncatedTocFile 1 = ExtractResult.panicked := by
  decide

/-- An image whose (only) marker occurrence ends before the end of the
image bytes: the marker followed by one extra `0xFF` byte. -/
def c2cexImage : List Nat := IEND_CHUNK ++ [255]

/-- The container written from `c2cexImage` and one probe-accepted
payload named `"a"` with bytes `[5]`. -/
def c2cexFile : List Nat := record_bytes c2cexImage [([97], [5])]

/-- C2 counterexample: the round-trip claim quantifies over any image
bytes containing the marker, but when the marker's first occurrence
does not end exactly at the end of the image, the reader decodes the
TOC from the wrong position.  Here `record` succeeds (probe accepts
everything), the image contains the marker, yet reading track 1 back
panics instead of returning the payload `[5]`: the count field is
decoded from `[255, 1, 0, 0]` as 511, and entry parsing runs off the
end of the file. -/
theorem c2_counterexample :
    record (fun _ => true) (fun _ => 0) c2cexImage [([97], [5])]
        = RecordResult.wrote c2cexFile
      ∧ c2cexImage.take 12 = IEND_CHUNK
      ∧ extract c2cexFile 1 = ExtractResult.panicked := by
  refine ⟨record_wrote (fun _ => true) (fun _ => 0) c2cexImage [([97], [5])]
    (by intro p hp; rfl), by decide, by decide⟩

/-- C2 (amended): round-trip identity holds for every container whose
marker scan resolves to the end of the image region — as with a real
PNG, whose IEND chunk is its final 12 bytes — with payload counts,
name lengths, and sizes within their `u32`/`u32`/`u64` machine bounds:
`record` then `inspect` lists exactly the original names with
byte-exact sizes, and `extract i` returns bytes identical to payload
`i` for every `i` in `[1, N]`. -/
theorem c2_roundtrip (probeOk : List Nat → Bool) (probeConsume : List Nat → Nat)
    (image : List Nat) (ps : List (List Nat × List Nat))
    (hprobe : ∀ p ∈ ps, probeOk p.2 = true)
    (hscan : find_iend (record_bytes image ps) = some image.length)
    (hN : ps.length < 4294967296)
    (hbounds : ∀ p ∈ ps, p.1.length < 4294967296 ∧ p.2.length < 18446744073709551616) :
    record probeOk probeConsume image ps = RecordResult.wrote (record_bytes image ps)
      ∧ inspect (record_bytes image ps)
          = InspectResult.ok (ps.map (fun p => (p.1, p.2.length)))
      ∧ ∀ i : Nat, 1 ≤ i → i ≤ ps.length →
          ∃ p, ps[i - 1]? = some p
            ∧ extract (record_bytes image ps) i = ExtractResult.ok p.2 := by
  refine ⟨record_wrote probeOk probeConsume image ps hprobe,
    inspect_record_ok image ps hscan hN hbounds, ?_⟩
  intro i h1 h2
  have hidx : i - 1 < ps.length := by omega
  refine ⟨ps.get ⟨i - 1, hidx⟩, List.getElem?_eq_getElem hidx, ?_⟩
  rw [extract_record_char image ps hscan hN hbounds i]
  rw [if_neg (by omega), if_neg (by omega)]
  rw [List.getElem?_eq_getElem hidx]
  rfl

/-- Witness image and payloads for the amended round-trip: the image is
exactly the marker, with two payloads `("a", [1, 2])` and `("b", [3])`. -/
def c2wPayloads : List (List Nat × List Nat) := [([97], [1, 2]), ([98], [3])]

theorem c2_roundtrip_witness :
    inspect (record_bytes IEND_CHUNK c2wPayloads)
      = InspectResult.ok [([97], 2), ([98], 1)] := by
  have h := c2_roundtrip (fun _ => true) (fun _ => 0) IEND_CHUNK c2wPayloads
    (by intro p hp; rfl) (by decide) (by decide) (by decide)
  exact h.2.1

/-- A container holding zero tracks: the marker image with an empty
payload list. -/
def c6cexFile : List Nat := record_bytes IEND_CHUNK []

/-- C6 counterexample: the claim asserts `IndexOutOfRange` for every
container whenever `index < 1` or `index > track_count`, but for a
container with `track_count = 0` the code takes the earlier
"blank cassette" path for every index, so the failure is a different
error than `IndexOutOfRange`. -/
theorem c6_counterexample :
    record (fun _ => true) (fun _ => 0) IEND_CHUNK [] = RecordResult.wrote c6cexFile
      ∧ extract c6cexFile 5 = ExtractResult.blankCassette
      ∧ extract c6cexFile 5 ≠ ExtractResult.indexOutOfRange := by
  refine ⟨record_wrote (fun _ => true) (fun _ => 0) IEND_CHUNK []
    (by intro p hp; simp at hp), by decide, by decide⟩

/-- C6 (amended): for every container produced by `record` whose marker
scan resolves to the image boundary and holding `track_count ≥ 1`
tracks (entry counts, name lengths and sizes within machine bounds),
`extract` with a 1-based index fails with `IndexOutOfRange` whenever
`index < 1` or `index > track_count`, and otherwise reads exactly the
entry's size bytes at the resolved offset; a zero-track container
instead fails earlier with a distinct blank-cassette error. -/
theorem c6_index_bounds (image : List Nat) (ps : List (List Nat × List Nat))
    (hscan : find_iend (record_bytes image ps) = some image.length)
    (hN : ps.length < 4294967296)
    (hbounds : ∀ p ∈ ps, p.1.length < 4294967296 ∧ p.2.length < 18446744073709551616)
    (hne : ps ≠ []) (idx : Nat) :
    ((idx = 0 ∨ ps.length < idx) →
        extract (record_bytes image ps) idx = ExtractResult.indexOutOfRange)
      ∧ (1 ≤ idx → idx ≤ ps.length →
          ∃ p, ps[idx - 1]? = some p
            ∧ extract (record_bytes image ps) idx = ExtractResult.ok p.2) := by
  have hlen0 : ps.length ≠ 0 := fun h => hne (List.length_eq_zero.mp h)
  constructor
  · intro hoor
    rw [extract_record_char image ps hscan hN hbounds idx]
    rw [if_neg hlen0, if_pos hoor]
  · intro h1 h2
    have hidx : idx - 1 < ps.length := by omega
    refine ⟨ps.get ⟨idx - 1, hidx⟩, List.getElem?_eq_getElem hidx, ?_⟩
    rw [extract_record_char image ps hscan hN hbounds idx]
    rw [if_neg hlen0, if_neg (by omega)]
    rw [List.getElem?_eq_getElem hidx]
    rfl

/-- Witness payloads for the amended index-bounds claim: a three-track
container with payloads `[1, 2]`, `[3]`, `[4, 5, 6]`. -/
def c6wPayloads : List (List Nat × List Nat) :=
  [([97], [1, 2]), ([98], [3]), ([99], [4, 5, 6])]

theorem c6_witness :
    extract (record_bytes IEND_CHUNK c6wPayloads) 0 = ExtractResult.indexOutOfRange
      ∧ extract (record_bytes IEND_CHUNK c6wPayloads) 4 = ExtractResult.indexOutOfRange
      ∧ extract (record_bytes IEND_CHUNK c6wPayloads) 2 = ExtractResult.ok [3] := by
  have h0 := (c6_index_bounds IEND_CHUNK c6wPayloads (by decide) (by decide) (by decide)
    (by decide) 0).1 (Or.inl rfl)
  have h4 := (c6_index_bounds IEND_CHUNK c6wPayloads (by decide) (by decide) (by decide)
    (by decide) 4).1 (Or.inr (by decide))
  have h2 := (c6_index_bounds IEND_CHUNK c6wPayloads (by decide) (by decide) (by decide)
    (by decide) 2).2 (by norm_num) (by decide)
  obtain ⟨p, hp, he⟩ := h2
  have hpv : p = ([98], [3]) := by
    have hv : c6wPayloads[1]? = some (([98], [3]) : List Nat × List Nat) := by decide
    rw [hv, Option.some.injEq] at hp
    exact hp.symm
  rw [hpv] at he
  exact ⟨h0, h4, he⟩

/-- C4: every successful write satisfies the container invariant: the
output length is `payload_region_start + sum(sizes) + 4` where
`payload_region_start = image_length + toc_length`, and the last 4
bytes are the little-endian CRC-32 of every preceding byte in file
order.  In the concrete scenario of a 100-byte image with payloads
`"a.flac"` (500 bytes) and `"b.mp3"` (300 bytes), the TOC serializes
to 39 bytes and the file length is 943. -/
theorem c4_container_invariant (probeOk : List Nat → Bool) (probeConsume : List Nat → Nat)
    (image : List Nat) (ps : List (List Nat × List Nat)) (out : List Nat)
    (hw : record probeOk probeConsume image ps = RecordResult.wrote out) :
    out.length = image.length + (toc_bytes (ps.map (fun p => (p.1, p.2.length)))).length
        + (ps.map (fun p => p.2.length)).sum + 4
      ∧ out.drop (out.length - 4) = u32_le (crc32 (out.take (out.length - 4)))
      ∧ (toc_bytes [([97, 46, 102, 108, 97, 99], 500),
          ([98, 46, 109, 112, 51], 300)]).length = 39
      ∧ (record_bytes (List.replicate 100 0)
            [([97, 46, 102, 108, 97, 99], List.replicate 500 1),
             ([98, 46, 109, 112, 51], List.replicate 300 2)]).length = 943 := by
  obtain rfl : out = record_bytes image ps :=
    record_wrote_inv probeOk probeConsume image ps out hw
  refine ⟨record_bytes_length image ps, record_bytes_trailer image ps, by decide, ?_⟩
  rw [record_bytes_length]
  have htoc : (toc_bytes (([([97, 46, 102, 108, 97, 99], List.replicate 500 1),
        ([98, 46, 109, 112, 51], List.replicate 300 2)]
          : List (List Nat × List Nat)).map (fun p => (p.1, p.2.length)))).length = 39 := by
    simp only [List.map_cons, List.map_nil, List.length_replicate]
    decide
  have hsum : (([([97, 46, 102, 108, 97, 99], List.replicate 500 1),
        ([98, 46, 109, 112, 51], List.replicate 300 2)]
          : List (List Nat × List Nat)).map (fun p => p.2.length)).sum = 800 := by
    simp only [List.map_cons, List.map_nil, List.length_replicate, List.sum_cons, List.sum_nil]
    norm_num
  rw [htoc, hsum, List.length_replicate]

theorem c4_witness :
    (record_bytes ([0] : List Nat) ([] : List (List Nat × List Nat))).length
      = ([0] : List Nat).length
        + (toc_bytes (([] : List (List Nat × List Nat)).map (fun p => (p.1, p.2.length)))).length
        + (([] : List (List Nat × List Nat)).map (fun p => p.2.length)).sum + 4 :=
  (c4_container_invariant (fun _ => true) (fun _ => 0) [0] [] (record_bytes [0] [])
    (record_wrote (fun _ => true) (fun _ => 0) [0] [] (by intro p hp; simp at hp))).1

/-- C5: for every file of length at least 4, the verification pass
hashes exactly `file_length - 4` bytes (even though 4 more remain) and
flags a checksum mismatch precisely when the computed CRC-32 differs
from the stored 4-byte little-endian trailer; every file under 4 bytes
fails with the file-too-small error. -/
theorem c5_verify_checksum (file : List Nat) :
    (file.length < 4 → inspect file = InspectResult.tooSmall)
      ∧ (4 ≤ file.length →
          (hash_only file 0 (file.length - 4) 0xFFFFFFFF).2 = file.length - 4
            ∧ (inspect file = InspectResult.checksumMismatch
                ↔ crc32 (file.take (file.length - 4))
                    ≠ le_decode (file.drop (file.length - 4)))) := by
  constructor
  · intro h
    unfold inspect
    rw [if_pos h]
  · intro h
    have hm : min (file.length - 4) (file.length - 0) = file.length - 4 := by omega
    have hcons : (hash_only file 0 (file.length - 4) 0xFFFFFFFF).2 = file.length - 4 := by
      rw [hash_only_spec]
      exact hm
    refine ⟨hcons, ?_⟩
    have hread : readBytes file (file.length - 4) 4 = some (file.drop (file.length - 4)) := by
      unfold readBytes
      rw [if_pos (by omega)]
      rw [List.take_of_length_le (by rw [List.length_drop]; omega)]
    have hfold : (file.take (file.length - 4)).foldl crc32_update 0xFFFFFFFF ^^^ 0xFFFFFFFF
        = crc32 (file.take (file.length - 4)) := rfl
    unfold inspect
    rw [if_neg (by omega)]
    simp only [hash_only_spec, hm, List.drop_zero, hread, hfold]
    by_cases hc : crc32 (file.take (file.length - 4)) ≠ le_decode (file.drop (file.length - 4))
    · rw [if_pos hc]
      simp [hc]
    · rw [if_neg hc]
      constructor
      · intro hcontr
        exfalso
        rcases hfi : find_iend file with _ | tp
        · simp only [hfi] at hcontr
          exact absurd hcontr (by simp)
        · simp only [hfi] at hcontr
          rcases hrb : readBytes file tp 4 with _ | cb
          · simp only [hrb] at hcontr
            exact absurd hcontr (by simp)
          · simp only [hrb] at hcontr
            rcases hpe : parse_entries file (tp + 4) (le_decode cb) with _ | pr
            · simp only [hpe] at hcontr
              exact absurd hcontr (by simp)
            · simp only [hpe] at hcontr
              obtain ⟨entries, audioStart⟩ := pr
              by_cases hcp : check_payloads file audioStart entries
              · simp [hcp] at hcontr
              · simp [hcp] at hcontr
      · intro hcontr
        exact absurd hcontr hc

theorem c5_witness :
    inspect [0, 1, 2] = InspectResult.tooSmall
      ∧ (hash_only [9, 9, 9, 9, 9] 0 (([9, 9, 9, 9, 9] : List Nat).length - 4) 0xFFFFFFFF).2
          = ([9, 9, 9, 9, 9] : List Nat).length - 4 :=
  ⟨(c5_verify_checksum [0, 1, 2]).1 (by norm_num),
   ((c5_verify_checksum [9, 9, 9, 9, 9]).2 (by norm_num)).1⟩
